import Mathlib

/-!
Verification of the configuration-merge engine and stylelint-target scanner
of the quality-automation setup tool (`setup.js`, `config/defaults.js`).

JavaScript objects are modelled as association lists `List (String × α)`:
`jsGet` is property lookup (first binding wins, as JS objects have unique
keys) and `jsSet` is property assignment (updates the value in place,
keeping insertion order, or appends a fresh binding at the end).
JavaScript strings are modelled as Lean `String`s; string values are
"truthy" exactly when they are non-empty, mirroring `if (!obj[key])`.
-/

/-- Property lookup on a JS object: the first binding for the key. -/
def jsGet {α : Type} : List (String × α) → String → Option α
  | [], _ => none
  | (k', v) :: rest, k => if k' = k then some v else jsGet rest k

/-- Property assignment on a JS object: update the first binding in place,
or append a new binding at the end (JS insertion-order semantics). -/
def jsSet {α : Type} : List (String × α) → String → α → List (String × α)
  | [], k, v => [(k, v)]
  | (k', v') :: rest, k, v =>
    if k' = k then (k, v) :: rest else (k', v') :: jsSet rest k v

/-- Does the needle occur as a contiguous run of the haystack, starting
at some position?  (Scan every suffix for a prefix match.) -/
def listInfix (needle : List Char) : List Char → Bool
  | [] => needle.isEmpty
  | c :: rest => needle.isPrefixOf (c :: rest) || listInfix needle rest

/-- JS `String.prototype.includes`: the pattern occurs as a contiguous
substring of the receiver. -/
def strContains (s pat : String) : Bool :=
  listInfix pat.data s.data

/-- JS `String.prototype.replace` with a global literal pattern:
leftmost non-overlapping occurrences are replaced, scanning resumes
after each replacement.  The fuel argument (the haystack length at the
start) only drives structural recursion; one character is consumed per
step, so it never runs out for a non-empty pattern. -/
def jsReplaceAux (needle repl : List Char) : Nat → List Char → List Char
  | 0, hay => hay
  | _ + 1, [] => []
  | fuel + 1, c :: rest =>
    if needle.isPrefixOf (c :: rest) then
      repl ++ jsReplaceAux needle repl fuel ((c :: rest).drop needle.length)
    else c :: jsReplaceAux needle repl fuel rest

def jsReplaceAll (s pat repl : String) : String :=
  String.mk (jsReplaceAux pat.data repl.data s.data.length s.data)

/-- JS `String.prototype.toLowerCase` (ASCII range, which covers every
recognized style extension). -/
def jsToLower (s : String) : String :=
  String.mk (s.data.map Char.toLower)

/-- JS truthiness of an optional string property: `undefined` and the
empty string are falsy. -/
def truthyStr : Option String → Bool
  | none => false
  | some s => s != ""

/-! ## Default Policy Provider (`config/defaults.js`) -/

def JS_LINT_EXTENSIONS : String := ".js,.jsx,.mjs,.cjs,.html"

def TS_LINT_EXTENSIONS : String := ".js,.jsx,.mjs,.cjs,.ts,.tsx,.html"

def STYLELINT_EXTENSIONS : List String := ["css", "scss", "sass", "less", "pcss"]

/-- `**/*.{css,scss,sass,less,pcss}` (braces written as escapes). -/
def DEFAULT_STYLELINT_TARGET : String :=
  "**/*.\x7b" ++ String.intercalate "," STYLELINT_EXTENSIONS ++ "\x7d"

/-- Iteration of a JS `Set` being filled from a list: elements already
seen are skipped, first occurrences are kept in order. -/
def setDedupAux (seen : List String) : List String → List String
  | [] => []
  | a :: rest =>
    if seen.contains a then setDedupAux seen rest
    else a :: setDedupAux (a :: seen) rest

/-- First-occurrence deduplication, as `[...new Set(targets)]`. -/
def setDedup (l : List String) : List String := setDedupAux [] l

/-- `normalizeStylelintTargets`: drop falsy (empty) entries, fall back to
the blanket default when nothing remains, else dedup preserving order. -/
def normalizeStylelintTargets (stylelintTargets : List String) : List String :=
  let targets := stylelintTargets.filter (fun t => t ≠ "")
  if targets.isEmpty then [DEFAULT_STYLELINT_TARGET] else setDedup targets

/-- `stylelintBraceGroup`: a single target stays bare, several are joined
into one brace group. -/
def stylelintBraceGroup (stylelintTargets : List String) : String :=
  match normalizeStylelintTargets stylelintTargets with
  | [t] => t
  | targets => "\x7b" ++ String.intercalate "," targets ++ "\x7d"

/-- `getDefaultScripts` (the base scripts spread with the lint scripts). -/
def getDefaultScripts (typescript : Bool) (stylelintTargets : List String) :
    List (String × String) :=
  let extensions := if typescript then TS_LINT_EXTENSIONS else JS_LINT_EXTENSIONS
  let stylelintTarget := stylelintBraceGroup stylelintTargets
  [("format", "prettier --write ."),
   ("format:check", "prettier --check ."),
   ("lint", "eslint . --ext " ++ extensions ++ " && stylelint \"" ++
      stylelintTarget ++ "\" --allow-empty-input"),
   ("lint:fix", "eslint . --ext " ++ extensions ++ " --fix && stylelint \"" ++
      stylelintTarget ++ "\" --fix --allow-empty-input")]

/-- `getDefaultDevDependencies`: the base tooling map, with the
TypeScript tooling entries assigned on top when requested. -/
def getDefaultDevDependencies (typescript : Bool) : List (String × String) :=
  [("husky", "^9.1.4"),
   ("lint-staged", "^15.2.10"),
   ("prettier", "^3.3.3"),
   ("eslint", "^9.12.0"),
   ("globals", "^15.9.0"),
   ("stylelint", "^16.8.0"),
   ("stylelint-config-standard", "^37.0.0")] ++
  (if typescript then
     [("@typescript-eslint/eslint-plugin", "^8.9.0"),
      ("@typescript-eslint/parser", "^8.9.0")]
   else [])

def JS_LINT_STAGED_PATTERN : String := "**/*.\x7bjs,jsx,mjs,cjs,html\x7d"

def TS_LINT_STAGED_PATTERN : String := "**/*.\x7bjs,jsx,ts,tsx,mjs,cjs,html\x7d"

/-- `getDefaultLintStaged` / `baseLintStaged`: the three fixed entries,
then one assignment per normalized stylelint target. -/
def getDefaultLintStaged (typescript : Bool) (stylelintTargets : List String) :
    List (String × List String) :=
  let patterns := if typescript then TS_LINT_STAGED_PATTERN else JS_LINT_STAGED_PATTERN
  let base : List (String × List String) :=
    [("package.json", ["prettier --write"]),
     (patterns, ["eslint --fix", "prettier --write"]),
     ("**/*.\x7bjson,md,yml,yaml\x7d", ["prettier --write"])]
  (normalizeStylelintTargets stylelintTargets).foldl
    (fun acc target => jsSet acc target ["stylelint --fix", "prettier --write"])
    base

/-! ## Merge Engine (`setup.js` lines 277–355) -/

/-- A lint-staged value is either a bare scalar command string or a list
of commands (`Scalar(string) | List(seq<string>)`). -/
inductive LintStagedValue where
  | scalar (s : String)
  | list (cmds : List String)
deriving DecidableEq, Repr

/-- JS truthiness of an optional lint-staged property: `undefined` and
the empty scalar string are falsy; every array is truthy. -/
def truthyLS : Option LintStagedValue → Bool
  | none => false
  | some (.scalar s) => s != ""
  | some (.list _) => true

/-- Coerce a lint-staged value to a command sequence: a bare scalar
becomes a one-element list (`Array.isArray(v) ? [...v] : [v]`). -/
def toCommandList : LintStagedValue → List String
  | .scalar s => [s]
  | .list cmds => cmds

/-- The union loop: push each default command not already present
(membership against the growing merged list, exact string equality). -/
def unionCommands (existing commands : List String) : List String :=
  commands.foldl (fun merged c => if merged.contains c then merged else merged ++ [c]) existing

/-- The generic "add only missing keys" loop used for scripts and
devDependencies: `if (!obj[name]) obj[name] = value`. -/
def mergeMapStr (m : List (String × String)) (defaults : List (String × String)) :
    List (String × String) :=
  defaults.foldl
    (fun acc kv => if truthyStr (jsGet acc kv.1) then acc else jsSet acc kv.1 kv.2)
    m

/-- The new value of the `prepare` script (setup.js lines 296–303):
falsy → `husky`; contains the legacy `husky install` → rewrite every
occurrence; contains no `husky` at all → append `&& husky`; else keep. -/
def prepareValue : Option String → String
  | none => "husky"
  | some s =>
    if s = "" then "husky"
    else if strContains s "husky install" then jsReplaceAll s "husky install" "husky"
    else if !(strContains s "husky") then s ++ " && husky"
    else s

/-- Apply the `prepare` rule to a scripts object.  In the "unchanged"
branch the source performs no assignment; writing the identical value
back through `jsSet` leaves the object unchanged as well. -/
def applyPrepare (scripts : List (String × String)) : List (String × String) :=
  jsSet scripts "prepare" (prepareValue (jsGet scripts "prepare"))

/-- The value stored for a default lint-staged pattern that is not
skipped: insert the default commands when the current value is falsy,
otherwise union them into the coerced existing sequence. -/
def mergedValue (v : Option LintStagedValue) (commands : List String) : List String :=
  match v with
  | none => commands
  | some (.scalar s) => if s = "" then commands else unionCommands [s] commands
  | some (.list l) => unionCommands l commands

/-- One step of the lint-staged merge loop; `hasCss` is the
`hasExistingCssPatterns` flag computed once before the loop. -/
def lintStagedStep (stylelintTargets : List String) (hasCss : Bool)
    (acc : List (String × LintStagedValue)) (pc : String × List String) :
    List (String × LintStagedValue) :=
  if stylelintTargets.contains pc.1 && hasCss then acc
  else jsSet acc pc.1 (.list (mergedValue (jsGet acc pc.1) pc.2))

/-- `patternIncludesStylelintExtension`: the lowercased pattern contains
`.` + some recognized style extension as a substring. -/
def patternIncludesStylelintExtension (pattern : String) : Bool :=
  STYLELINT_EXTENSIONS.any (fun ext => strContains (jsToLower pattern) ("." ++ ext))

/-- `hasExistingCssPatterns`: some existing lint-staged key matches. -/
def hasExistingCssPatterns (m : List (String × LintStagedValue)) : Bool :=
  (m.map Prod.fst).any patternIncludesStylelintExtension

/-- The lint-staged merge loop (setup.js lines 335–355). -/
def mergeLintStaged (m : List (String × LintStagedValue))
    (defaults : List (String × List String)) (stylelintTargets : List String) :
    List (String × LintStagedValue) :=
  defaults.foldl (lintStagedStep stylelintTargets (hasExistingCssPatterns m)) m

/-- The ProjectConfiguration being assembled: scripts, devDependencies
and the lint-staged mapping. -/
structure PackageConfig where
  scripts : List (String × String)
  devDependencies : List (String × String)
  lintStaged : List (String × LintStagedValue)
deriving DecidableEq, Repr

/-- The full merge of one run (setup.js lines 277–355): default scripts,
the `prepare` rule, default devDependencies, and the lint-staged merge,
for the policy computed from (typescript, stylelintTargets). -/
def mergePackageConfig (pkg : PackageConfig) (typescript : Bool)
    (stylelintTargets : List String) : PackageConfig :=
  { scripts :=
      applyPrepare (mergeMapStr pkg.scripts (getDefaultScripts typescript stylelintTargets)),
    devDependencies :=
      mergeMapStr pkg.devDependencies (getDefaultDevDependencies typescript),
    lintStaged :=
      mergeLintStaged pkg.lintStaged (getDefaultLintStaged typescript stylelintTargets)
        stylelintTargets }


/-! ## Filesystem Scanner (`setup.js` lines 24–135) -/

/-- A directory entry as seen by `readdirSync(..., { withFileTypes: true })`:
a regular file, a subdirectory with its own listing, or a symbolic link. -/
inductive FSEntry where
  | file (name : String)
  | dir (name : String) (children : List FSEntry)
  | symlink (name : String)
deriving Repr

/-- `*.{css,scss,sass,less,pcss}`: style extensions directly at one level. -/
def STYLELINT_EXTENSION_GLOB : String :=
  "*.\x7b" ++ String.intercalate "," STYLELINT_EXTENSIONS ++ "\x7d"

/-- `**/*.{css,scss,sass,less,pcss}` as defined in setup.js (same string as
`DEFAULT_STYLELINT_TARGET` from defaults.js). -/
def STYLELINT_DEFAULT_TARGET : String :=
  "**/*.\x7b" ++ String.intercalate "," STYLELINT_EXTENSIONS ++ "\x7d"

def STYLELINT_SCAN_EXCLUDES : List String :=
  [".git", ".github", ".husky", ".next", ".nuxt", ".output", ".turbo",
   ".vercel", ".cache", ".pnpm-store", "coverage", "node_modules"]

def MAX_STYLELINT_SCAN_DEPTH : Nat := 4

/-- The characters after the last `.` of a list, if any dot exists. -/
def extSuffix : List Char → Option (List Char)
  | [] => none
  | c :: rest =>
    match extSuffix rest with
    | some e => some e
    | none => if c = '.' then some rest else none

/-- `path.extname(fileName).slice(1)`: the characters after the last
dot, empty when there is no dot or when the only dot is the leading
character (dotfiles have no extension). -/
def extnameNoDot (fileName : String) : String :=
  match fileName.data with
  | [] => ""
  | _ :: rest =>
    match extSuffix rest with
    | some e => String.mk e
    | none => ""

/-- `isStylelintFile`: lowercased extension in the recognized set. -/
def isStylelintFile (fileName : String) : Bool :=
  STYLELINT_EXTENSIONS.contains (jsToLower (extnameNoDot fileName))

/-- The entry loop of `directoryContainsStylelintFiles` at a given depth:
skip symlinks, stop at a matching file, recurse (with the `depth >
MAX_STYLELINT_SCAN_DEPTH` guard of the callee inlined) into non-excluded
subdirectories.  The structural fuel argument always equals
`MAX_STYLELINT_SCAN_DEPTH + 1 - depth`, so the depth guard fires strictly
before the fuel could run out and the `0` branch is unreachable. -/
def directoryScanFuel : Nat → List FSEntry → Nat → Bool
  | 0, _, _ => false
  | fuel + 1, entries, depth =>
    entries.any fun e =>
      match e with
      | .file n => isStylelintFile n
      | .symlink _ => false
      | .dir n children =>
        !(STYLELINT_SCAN_EXCLUDES.contains n) &&
          (if MAX_STYLELINT_SCAN_DEPTH < depth + 1 then false
           else directoryScanFuel fuel children (depth + 1))

/-- `directoryContainsStylelintFiles(dir, depth)`: depth guard, then the
entry loop over the directory listing. -/
def directoryContainsStylelintFiles (entries : List FSEntry) (depth : Nat := 0) : Bool :=
  if MAX_STYLELINT_SCAN_DEPTH < depth then false
  else directoryScanFuel (MAX_STYLELINT_SCAN_DEPTH + 1 - depth) entries depth

/-- The `hasRootCss` flag of `findStylelintTargets`: some non-symlink
file entry directly in the root matches a style extension. -/
def hasRootCssFlag (entries : List FSEntry) : Bool :=
  entries.any (fun e => match e with
    | .file n => isStylelintFile n
    | _ => false)

/-- The names collected into the `targets` set of `findStylelintTargets`,
in directory-listing order: non-symlink, non-excluded subdirectories
whose bounded scan finds a style file. -/
def targetDirNames (entries : List FSEntry) : List String :=
  entries.filterMap (fun e => match e with
    | .dir n children =>
      if STYLELINT_SCAN_EXCLUDES.contains n then none
      else if directoryContainsStylelintFiles children 0 then some n else none
    | _ => none)

/-- Lexicographic comparison of character sequences by code point, the
order `Array.prototype.sort()` applies to directory-name strings. -/
def leChars : List Char → List Char → Bool
  | [], _ => true
  | _ :: _, [] => false
  | a :: as, b :: bs =>
    if a.toNat < b.toNat then true
    else if b.toNat < a.toNat then false
    else leChars as bs

/-- The string order used by the JS default sort. -/
def strLeb (a b : String) : Bool := leChars a.data b.data

/-- `Array.from(targets).sort()`: the set's distinct names in sorted
order.  On the deduplicated names the JS sort is the unique sorted
rearrangement, modelled by insertion sort over the string order. -/
def sortedTargetDirs (entries : List FSEntry) : List String :=
  List.insertionSort (fun a b => strLeb a b = true) (setDedup (targetDirNames entries))

/-- `findStylelintTargets`: the root-level glob when root style files
exist, one recursive glob per marked directory in sorted order, and the
blanket fallback when nothing was found. -/
def findStylelintTargets (entries : List FSEntry) : List String :=
  let resolvedTargets :=
    (if hasRootCssFlag entries then [STYLELINT_EXTENSION_GLOB] else []) ++
    (sortedTargetDirs entries).map (fun dir => dir ++ "/**/" ++ STYLELINT_EXTENSION_GLOB)
  if resolvedTargets.isEmpty then [STYLELINT_DEFAULT_TARGET] else resolvedTargets

/-! ## package.json loading and validation (`setup.js` lines 214–258) -/

/-- Parsed JSON values, as far as the validation distinguishes them. -/
inductive JsonValue where
  | obj (fields : List (String × JsonValue))
  | arr (elems : List JsonValue)
  | str (s : String)
  | num (n : Int)
  | bool (b : Bool)
  | null
deriving Repr

/-- The state of the `package.json` file before the run. -/
inductive FileState where
  | absent
  | emptyContent
  | malformed
  | parsed (v : JsonValue)

/-- `typeof v` for a parsed JSON value: objects, arrays and `null` all
have typeof `object` in JavaScript. -/
def jsTypeof : JsonValue → String
  | .obj _ => "object"
  | .arr _ => "object"
  | .null => "object"
  | .str _ => "string"
  | .num _ => "number"
  | .bool _ => "boolean"

/-- `v === null` on a parsed JSON value. -/
def isNullJson : JsonValue → Bool
  | .null => true
  | _ => false

/-- Outcome of the load/validation phase: `fatal` models `process.exit(1)`
before any mutation; `ok` hands the configuration to the merge. -/
inductive LoadResult where
  | fatal
  | ok (pkg : JsonValue)
deriving Repr

/-- The fresh package.json created when the file is absent. -/
def newPackageJson (projectName : String) : JsonValue :=
  .obj [("name", .str projectName), ("version", .str "1.0.0"),
        ("description", .str ""), ("main", .str "index.js"),
        ("scripts", .obj [])]

/-- Loading and validating package.json: absent → fresh object; empty or
unparseable content → fatal; parsed value failing
`typeof pkg !== 'object' || pkg === null` → fatal; else accepted. -/
def loadPackageJson (file : FileState) (projectName : String) : LoadResult :=
  match file with
  | .absent => .ok (newPackageJson projectName)
  | .emptyContent => .fatal
  | .malformed => .fatal
  | .parsed v =>
    if (jsTypeof v != "object") || isNullJson v then .fatal else .ok v

/-! ## Basic lemmas about the JS object model -/

theorem jsGet_jsSet_self {α : Type} (m : List (String × α)) (k : String) (v : α) :
    jsGet (jsSet m k v) k = some v := by
  induction m with
  | nil => simp [jsGet, jsSet]
  | cons hd tl ih =>
    obtain ⟨k', v'⟩ := hd
    by_cases h : k' = k <;> simp [jsGet, jsSet, h, ih]

theorem jsGet_jsSet_ne {α : Type} (m : List (String × α)) (k k' : String) (v : α)
    (h : k ≠ k') : jsGet (jsSet m k v) k' = jsGet m k' := by
  induction m with
  | nil => simp [jsGet, jsSet, h]
  | cons hd tl ih =>
    obtain ⟨k₀, v₀⟩ := hd
    by_cases h₀ : k₀ = k
    · subst h₀; simp [jsGet, jsSet, h]
    · simp only [jsSet, if_neg h₀, jsGet]
      by_cases h₁ : k₀ = k' <;> simp [h₁, ih]

theorem jsSet_same {α : Type} (m : List (String × α)) (k : String) (v : α)
    (h : jsGet m k = some v) : jsSet m k v = m := by
  induction m with
  | nil => simp [jsGet] at h
  | cons hd tl ih =>
    obtain ⟨k₀, v₀⟩ := hd
    by_cases h₀ : k₀ = k
    · subst h₀
      have h' : v₀ = v := by simpa [jsGet] using h
      subst h'
      simp [jsSet]
    · simp only [jsGet, if_neg h₀] at h
      simp [jsSet, h₀, ih h]

theorem keys_jsSet {α : Type} (m : List (String × α)) (k : String) (v : α) :
    (jsSet m k v).map Prod.fst =
      (if k ∈ m.map Prod.fst then m.map Prod.fst else m.map Prod.fst ++ [k]) := by
  induction m with
  | nil => simp [jsSet]
  | cons hd tl ih =>
    obtain ⟨k₀, v₀⟩ := hd
    by_cases h₀ : k₀ = k
    · subst h₀; simp [jsSet]
    · have hne : ¬ k = k₀ := fun h => h₀ h.symm
      by_cases hmem : k ∈ tl.map Prod.fst
      · simp [jsSet, h₀, ih, hmem, hne]
      · simp [jsSet, h₀, ih, hmem, hne]

theorem mem_keys_jsSet {α : Type} (m : List (String × α)) (k k' : String) (v : α)
    (h : k' ∈ m.map Prod.fst) : k' ∈ (jsSet m k v).map Prod.fst := by
  rw [keys_jsSet]
  by_cases hmem : k ∈ m.map Prod.fst <;> simp [hmem, h]

theorem nodupKeys_jsSet {α : Type} (m : List (String × α)) (k : String) (v : α)
    (h : (m.map Prod.fst).Nodup) : ((jsSet m k v).map Prod.fst).Nodup := by
  rw [keys_jsSet]
  by_cases hmem : k ∈ m.map Prod.fst
  · simpa [hmem] using h
  · simp [hmem, List.nodup_append, h]

/-! ## Lemmas about the scripts/devDependencies merge loop -/

/-- A present value is never changed by the loop: a step for the same key
skips (the value is some v; when v is non-empty it is truthy), and a step
for another key cannot touch it. -/
theorem mergeMapStr_preserves_truthy (ds : List (String × String))
    (m : List (String × String)) (k : String) (v : String)
    (hget : jsGet m k = some v) (hv : v ≠ "") :
    jsGet (mergeMapStr m ds) k = some v := by
  induction ds generalizing m with
  | nil => exact hget
  | cons hd tl ih =>
    obtain ⟨k₀, v₀⟩ := hd
    show jsGet (List.foldl _ (if truthyStr (jsGet m k₀) then m else jsSet m k₀ v₀) tl) k = some v
    by_cases h₀ : k₀ = k
    · subst h₀
      rw [hget]
      have : truthyStr (some v) = true := by simp [truthyStr, hv]
      rw [this]
      simp only [if_true]
      exact ih m hget
    · by_cases ht : truthyStr (jsGet m k₀) = true
      · rw [ht]; simp only [if_true]; exact ih m hget
      · rw [Bool.not_eq_true] at ht
        rw [ht]
        simp only [Bool.false_eq_true, if_false]
        exact ih _ (by rw [jsGet_jsSet_ne _ _ _ _ h₀, hget])

/-- Keys that are no default's key are never touched by the loop. -/
theorem mergeMapStr_preserves_other_keys (ds : List (String × String))
    (m : List (String × String)) (k : String)
    (h : ∀ kv ∈ ds, kv.1 ≠ k) :
    jsGet (mergeMapStr m ds) k = jsGet m k := by
  induction ds generalizing m with
  | nil => rfl
  | cons hd tl ih =>
    obtain ⟨k₀, v₀⟩ := hd
    have hk₀ : k₀ ≠ k := h (k₀, v₀) (by simp)
    show jsGet (List.foldl _ (if truthyStr (jsGet m k₀) then m else jsSet m k₀ v₀) tl) k
      = jsGet m k
    have htl : ∀ kv ∈ tl, kv.1 ≠ k := fun kv hkv => h kv (by simp [hkv])
    by_cases ht : truthyStr (jsGet m k₀) = true
    · rw [ht]; simp only [if_true]; exact ih m htl
    · rw [Bool.not_eq_true] at ht
      rw [ht]
      simp only [Bool.false_eq_true, if_false]
      exact (ih _ htl).trans (jsGet_jsSet_ne _ _ _ _ hk₀)

/-- A falsy (absent or empty) key that is a default key receives the
default value, provided the default keys are distinct. -/
theorem mergeMapStr_fills_falsy (ds : List (String × String))
    (m : List (String × String)) (k : String) (v : String)
    (hnd : (ds.map Prod.fst).Nodup) (hmem : (k, v) ∈ ds)
    (hf : truthyStr (jsGet m k) = false) :
    jsGet (mergeMapStr m ds) k = some v := by
  induction ds generalizing m with
  | nil => simp at hmem
  | cons hd tl ih =>
    obtain ⟨k₀, v₀⟩ := hd
    simp only [List.map_cons, List.nodup_cons] at hnd
    show jsGet (List.foldl _ (if truthyStr (jsGet m k₀) then m else jsSet m k₀ v₀) tl) k
      = some v
    by_cases h₀ : k₀ = k
    · subst h₀
      have hv : v₀ = v := by
        rcases List.mem_cons.mp hmem with h | h
        · exact (Prod.mk.injEq _ _ _ _ ▸ h.symm).2.symm ▸ rfl
        · exact absurd (List.mem_map.mpr ⟨(k₀, v), h, rfl⟩) hnd.1
      subst hv
      rw [hf]
      simp only [Bool.false_eq_true, if_false]
      refine mergeMapStr_preserves_other_keys tl _ _ ?_ |>.trans
        (jsGet_jsSet_self m _ _)
      intro kv hkv heq
      exact hnd.1 (List.mem_map.mpr ⟨kv, hkv, heq⟩)
    · have hmem' : (k, v) ∈ tl := by
        rcases List.mem_cons.mp hmem with h | h
        · exact absurd (congrArg Prod.fst h).symm h₀
        · exact h
      by_cases ht : truthyStr (jsGet m k₀) = true
      · rw [ht]; simp only [if_true]; exact ih m hnd.2 hmem' hf
      · rw [Bool.not_eq_true] at ht
        rw [ht]
        simp only [Bool.false_eq_true, if_false]
        exact ih _ hnd.2 hmem' (by rw [jsGet_jsSet_ne _ _ _ _ h₀]; exact hf)

/-- Truthiness of any key is preserved by the loop. -/
theorem mergeMapStr_keeps_truthy (ds : List (String × String))
    (m : List (String × String)) (k : String)
    (ht : truthyStr (jsGet m k) = true) :
    truthyStr (jsGet (mergeMapStr m ds) k) = true := by
  induction ds generalizing m with
  | nil => exact ht
  | cons hd tl ih =>
    obtain ⟨k₀, v₀⟩ := hd
    show truthyStr (jsGet (List.foldl _
      (if truthyStr (jsGet m k₀) then m else jsSet m k₀ v₀) tl) k) = true
    by_cases h₀ : k₀ = k
    · subst h₀; rw [ht]; simp only [if_true]; exact ih m ht
    · by_cases htk : truthyStr (jsGet m k₀) = true
      · rw [htk]; simp only [if_true]; exact ih m ht
      · rw [Bool.not_eq_true] at htk
        rw [htk]
        simp only [Bool.false_eq_true, if_false]
        exact ih _ (by rw [jsGet_jsSet_ne _ _ _ _ h₀]; exact ht)

/-- After one pass, every default key with a non-empty default value is
truthy. -/
theorem mergeMapStr_makes_truthy (ds : List (String × String))
    (m : List (String × String)) (k : String) (v : String)
    (hvals : ∀ kv ∈ ds, kv.2 ≠ "") (hmem : (k, v) ∈ ds) :
    truthyStr (jsGet (mergeMapStr m ds) k) = true := by
  induction ds generalizing m with
  | nil => simp at hmem
  | cons hd tl ih =>
    obtain ⟨k₀, v₀⟩ := hd
    have htl : ∀ kv ∈ tl, kv.2 ≠ "" := fun kv hkv => hvals kv (by simp [hkv])
    show truthyStr (jsGet (List.foldl _
      (if truthyStr (jsGet m k₀) then m else jsSet m k₀ v₀) tl) k) = true
    rcases List.mem_cons.mp hmem with h | h
    · have hk : k₀ = k := (congrArg Prod.fst h).symm
      subst hk
      by_cases ht : truthyStr (jsGet m k₀) = true
      · rw [ht]; simp only [if_true]; exact mergeMapStr_keeps_truthy tl m _ ht
      · rw [Bool.not_eq_true] at ht
        rw [ht]
        simp only [Bool.false_eq_true, if_false]
        refine mergeMapStr_keeps_truthy tl _ _ ?_
        rw [jsGet_jsSet_self]
        simpa [truthyStr] using hvals (k₀, v₀) (by simp)
    · by_cases ht : truthyStr (jsGet m k₀) = true
      · rw [ht]; simp only [if_true]; exact ih m htl h
      · rw [Bool.not_eq_true] at ht
        rw [ht]
        simp only [Bool.false_eq_true, if_false]
        exact ih _ htl h

/-- A second pass over defaults whose keys are all already truthy is the
identity. -/
theorem mergeMapStr_id (ds : List (String × String)) (m : List (String × String))
    (h : ∀ kv ∈ ds, truthyStr (jsGet m kv.1) = true) :
    mergeMapStr m ds = m := by
  induction ds with
  | nil => rfl
  | cons hd tl ih =>
    show List.foldl _ (if truthyStr (jsGet m hd.1) then m else jsSet m hd.1 hd.2) tl = m
    rw [h hd (by simp)]
    simp only [if_true]
    exact ih (fun kv hkv => h kv (by simp [hkv]))


/-! ## Facts about the concrete default policies -/

theorem append_ne_empty_right (a b : String) (hb : b ≠ "") : a ++ b ≠ "" := by
  intro hab
  apply hb
  have hl := congrArg String.length hab
  rw [String.length_append] at hl
  have h0 : ("" : String).length = 0 := rfl
  rw [h0] at hl
  obtain ⟨data⟩ := b
  have hd : data.length = 0 := by
    have : (String.mk data).length = data.length := rfl
    omega
  rw [List.length_eq_zero] at hd
  rw [hd]

theorem getDefaultScripts_keys (ts : Bool) (targets : List String) :
    (getDefaultScripts ts targets).map Prod.fst =
      ["format", "format:check", "lint", "lint:fix"] := by
  simp [getDefaultScripts]

theorem getDefaultScripts_no_prepare (ts : Bool) (targets : List String) :
    ∀ kv ∈ getDefaultScripts ts targets, kv.1 ≠ "prepare" := by
  intro kv hkv
  have h1 : kv.1 ∈ (getDefaultScripts ts targets).map Prod.fst :=
    List.mem_map.mpr ⟨kv, hkv, rfl⟩
  rw [getDefaultScripts_keys] at h1
  simp only [List.mem_cons, List.not_mem_nil, or_false] at h1
  rcases h1 with h | h | h | h <;> rw [h] <;> decide

theorem getDefaultScripts_values_ne_empty (ts : Bool) (targets : List String) :
    ∀ kv ∈ getDefaultScripts ts targets, kv.2 ≠ "" := by
  intro kv hkv
  simp only [getDefaultScripts, List.mem_cons, List.not_mem_nil, or_false] at hkv
  rcases hkv with h | h | h | h <;> rw [h]
  · decide
  · decide
  · exact append_ne_empty_right _ _ (by decide)
  · exact append_ne_empty_right _ _ (by decide)

theorem getDefaultScripts_nodup_keys (ts : Bool) (targets : List String) :
    ((getDefaultScripts ts targets).map Prod.fst).Nodup := by
  rw [getDefaultScripts_keys]
  decide

theorem getDefaultDevDependencies_values_ne_empty (ts : Bool) :
    ∀ kv ∈ getDefaultDevDependencies ts, kv.2 ≠ "" := by
  cases ts <;> decide

theorem getDefaultDevDependencies_nodup_keys (ts : Bool) :
    ((getDefaultDevDependencies ts).map Prod.fst).Nodup := by
  cases ts <;> decide

theorem mem_jsSet {α : Type} (m : List (String × α)) (k : String) (v : α) :
    ∀ kv ∈ jsSet m k v, kv ∈ m ∨ kv = (k, v) := by
  induction m with
  | nil =>
    intro kv hkv
    simp only [jsSet] at hkv
    exact Or.inr (by simpa using hkv)
  | cons hd tl ih =>
    obtain ⟨k₀, v₀⟩ := hd
    intro kv hkv
    by_cases h₀ : k₀ = k
    · simp only [jsSet, if_pos h₀] at hkv
      rcases List.mem_cons.mp hkv with h | h
      · exact Or.inr h
      · exact Or.inl (List.mem_cons_of_mem _ h)
    · simp only [jsSet, if_neg h₀] at hkv
      rcases List.mem_cons.mp hkv with h | h
      · exact Or.inl (h ▸ List.mem_cons_self _ _)
      · rcases ih kv h with h' | h'
        · exact Or.inl (List.mem_cons_of_mem _ h')
        · exact Or.inr h'

theorem mem_foldl_jsSet {α : Type} (ns : List String) (c : α)
    (init : List (String × α)) :
    ∀ kv ∈ ns.foldl (fun acc t => jsSet acc t c) init, kv ∈ init ∨ kv.2 = c := by
  induction ns generalizing init with
  | nil => intro kv hkv; exact Or.inl hkv
  | cons hd tl ih =>
    intro kv hkv
    rcases ih (jsSet init hd c) kv hkv with h | h
    · rcases mem_jsSet init hd c kv h with h' | h'
      · exact Or.inl h'
      · exact Or.inr (by rw [h'])
    · exact Or.inr h

/-- Every entry of the default lint-staged mapping is a base entry or a
stylelint-target entry carrying the fixed stylelint command list. -/
theorem getDefaultLintStaged_mem (ts : Bool) (targets : List String) :
    ∀ kv ∈ getDefaultLintStaged ts targets,
      kv ∈ [(("package.json" : String), ["prettier --write"]),
            ((if ts then TS_LINT_STAGED_PATTERN else JS_LINT_STAGED_PATTERN),
              (["eslint --fix", "prettier --write"] : List String)),
            (("**/*.\x7bjson,md,yml,yaml\x7d" : String), ["prettier --write"])] ∨
      kv.2 = ["stylelint --fix", "prettier --write"] :=
  mem_foldl_jsSet _ _ _

/-- Every default lint-staged command list is duplicate-free. -/
theorem getDefaultLintStaged_values_nodup (ts : Bool) (targets : List String) :
    ∀ kv ∈ getDefaultLintStaged ts targets, kv.2.Nodup := by
  intro kv hkv
  rcases getDefaultLintStaged_mem ts targets kv hkv with h | h
  · rcases List.mem_cons.mp h with h1 | h1
    · rw [h1]; decide
    · rcases List.mem_cons.mp h1 with h2 | h2
      · rw [h2]
        exact (by decide : (["eslint --fix", "prettier --write"] : List String).Nodup)
      · rcases List.mem_cons.mp h2 with h3 | h3
        · rw [h3]; decide
        · simp at h3
  · rw [h]; decide

/-- The default lint-staged keys are duplicate-free for every input. -/
theorem nodupKeys_foldl_jsSet {α : Type} (ns : List String) (c : α)
    (init : List (String × α)) (h : (init.map Prod.fst).Nodup) :
    (((ns.foldl (fun acc t => jsSet acc t c) init)).map Prod.fst).Nodup := by
  induction ns generalizing init with
  | nil => exact h
  | cons hd tl ih => exact ih _ (nodupKeys_jsSet _ _ _ h)

theorem getDefaultLintStaged_nodup_keys (ts : Bool) (targets : List String) :
    ((getDefaultLintStaged ts targets).map Prod.fst).Nodup := by
  refine nodupKeys_foldl_jsSet _ _ _ ?_
  cases ts <;> decide

/-! ## Lemmas about the lint-staged union -/

theorem unionCommands_cons (existing : List String) (c : String) (cs : List String) :
    unionCommands existing (c :: cs) =
      unionCommands (if existing.contains c then existing else existing ++ [c]) cs := rfl

theorem unionCommands_preserves_existing (commands existing : List String) :
    existing <+: unionCommands existing commands := by
  induction commands generalizing existing with
  | nil => exact List.prefix_refl _
  | cons c cs ih =>
    rw [unionCommands_cons]
    by_cases h : existing.contains c = true
    · rw [if_pos h]; exact ih existing
    · rw [Bool.not_eq_true] at h
      rw [h]
      simp only [Bool.false_eq_true, if_false]
      exact List.IsPrefix.trans ⟨[c], rfl⟩ (ih (existing ++ [c]))

theorem mem_unionCommands_left (commands existing : List String) (c : String)
    (h : c ∈ existing) : c ∈ unionCommands existing commands :=
  (unionCommands_preserves_existing commands existing).subset h

theorem mem_unionCommands_right (commands existing : List String) (c : String)
    (h : c ∈ commands) : c ∈ unionCommands existing commands := by
  induction commands generalizing existing with
  | nil => simp at h
  | cons c₀ cs ih =>
    rw [unionCommands_cons]
    rcases List.mem_cons.mp h with h₀ | h₀
    · subst h₀
      by_cases hc : existing.contains c = true
      · rw [if_pos hc]
        exact mem_unionCommands_left cs existing c (by simpa using hc)
      · rw [Bool.not_eq_true] at hc
        rw [hc]
        simp only [Bool.false_eq_true, if_false]
        exact mem_unionCommands_left cs _ c (by simp)
    · by_cases hc : existing.contains c₀ = true
      · rw [if_pos hc]; exact ih existing h₀
      · rw [Bool.not_eq_true] at hc
        rw [hc]
        simp only [Bool.false_eq_true, if_false]
        exact ih _ h₀

theorem unionCommands_id (commands existing : List String)
    (h : ∀ c ∈ commands, c ∈ existing) : unionCommands existing commands = existing := by
  induction commands with
  | nil => rfl
  | cons c cs ih =>
    rw [unionCommands_cons, if_pos (by simpa using h c (by simp))]
    exact ih (fun c' hc' => h c' (by simp [hc']))

/-- For a duplicate-free default command list the union is exactly the
existing list followed by the missing default commands in order. -/
theorem unionCommands_eq_append_filter (commands existing : List String)
    (hnd : commands.Nodup) :
    unionCommands existing commands =
      existing ++ commands.filter (fun c => !(existing.contains c)) := by
  induction commands generalizing existing with
  | nil => simp [unionCommands]
  | cons c cs ih =>
    rw [unionCommands_cons]
    rw [List.nodup_cons] at hnd
    by_cases hc : existing.contains c = true
    · rw [if_pos hc, ih existing hnd.2]
      have hce : c ∈ existing := by simpa using hc
      have : (List.filter (fun c' => !existing.contains c') (c :: cs)) =
          List.filter (fun c' => !existing.contains c') cs := by
        rw [List.filter_cons]
        simp [hce]
      rw [this]
    · rw [Bool.not_eq_true] at hc
      rw [hc]
      simp only [Bool.false_eq_true, if_false]
      rw [ih _ hnd.2]
      have hnc : c ∉ existing := by simpa using hc
      have hfeq : List.filter (fun c' => !(existing ++ [c]).contains c') cs =
          List.filter (fun c' => !existing.contains c') cs := by
        apply List.filter_congr
        intro x hx
        have hxc : x ≠ c := fun hxeq => hnd.1 (hxeq ▸ hx)
        simp [hxc]
      rw [hfeq, List.filter_cons]
      simp [hnc, List.append_assoc]

/-! ## Lemmas about the lint-staged merge loop -/

theorem lintStagedStep_other_key (T : List String) (css : Bool)
    (acc : List (String × LintStagedValue)) (pc : String × List String) (k : String)
    (h : pc.1 ≠ k) : jsGet (lintStagedStep T css acc pc) k = jsGet acc k := by
  unfold lintStagedStep
  by_cases hs : (T.contains pc.1 && css) = true
  · rw [if_pos hs]
  · rw [if_neg hs, jsGet_jsSet_ne _ _ _ _ h]

theorem lintStagedFold_preserves_other_keys (ds : List (String × List String))
    (T : List String) (css : Bool) (m : List (String × LintStagedValue)) (k : String)
    (h : ∀ pc ∈ ds, pc.1 ≠ k) :
    jsGet (ds.foldl (lintStagedStep T css) m) k = jsGet m k := by
  induction ds generalizing m with
  | nil => rfl
  | cons hd tl ih =>
    rw [List.foldl_cons]
    exact (ih _ (fun pc hpc => h pc (by simp [hpc]))).trans
      (lintStagedStep_other_key T css m hd k (h hd (by simp)))

/-- What one pass of the lint-staged loop stores under each default key,
assuming the default keys are distinct: skipped style keys keep their
existing value, every other default key receives the list built by
`mergedValue` (verbatim insert or union). -/
theorem lintStagedFold_pointwise (ds : List (String × List String))
    (T : List String) (css : Bool) (m : List (String × LintStagedValue))
    (p : String) (cmds : List String)
    (hnd : (ds.map Prod.fst).Nodup) (hmem : (p, cmds) ∈ ds) :
    jsGet (ds.foldl (lintStagedStep T css) m) p =
      (if T.contains p && css then jsGet m p
       else some (.list (mergedValue (jsGet m p) cmds))) := by
  induction ds generalizing m with
  | nil => simp at hmem
  | cons hd tl ih =>
    obtain ⟨p₀, cmds₀⟩ := hd
    simp only [List.map_cons, List.nodup_cons] at hnd
    rw [List.foldl_cons]
    by_cases h₀ : p₀ = p
    · subst h₀
      have hc : cmds₀ = cmds := by
        rcases List.mem_cons.mp hmem with h | h
        · exact ((Prod.mk.injEq _ _ _ _).mp h.symm).2
        · exact absurd (List.mem_map.mpr ⟨(p₀, cmds), h, rfl⟩) hnd.1
      subst hc
      have hothers : ∀ pc ∈ tl, pc.1 ≠ p₀ := by
        intro pc hpc heq
        exact hnd.1 (List.mem_map.mpr ⟨pc, hpc, heq⟩)
      rw [lintStagedFold_preserves_other_keys tl T css _ p₀ hothers]
      unfold lintStagedStep
      by_cases hs : (T.contains p₀ && css) = true
      · rw [if_pos hs, if_pos hs]
      · rw [if_neg hs, if_neg hs, jsGet_jsSet_self]
    · have hmem' : (p, cmds) ∈ tl := by
        rcases List.mem_cons.mp hmem with h | h
        · exact absurd ((Prod.mk.injEq _ _ _ _).mp h.symm).1 h₀
        · exact h
      rw [ih _ hnd.2 hmem',
        lintStagedStep_other_key T css m (p₀, cmds₀) p h₀]

/-- The loop never removes a key. -/
theorem lintStagedFold_keys_monotone (ds : List (String × List String))
    (T : List String) (css : Bool) (m : List (String × LintStagedValue)) (k : String)
    (h : k ∈ m.map Prod.fst) :
    k ∈ (ds.foldl (lintStagedStep T css) m).map Prod.fst := by
  induction ds generalizing m with
  | nil => exact h
  | cons hd tl ih =>
    rw [List.foldl_cons]
    refine ih _ ?_
    unfold lintStagedStep
    by_cases hs : (T.contains hd.1 && css) = true
    · rw [if_pos hs]; exact h
    · rw [if_neg hs]; exact mem_keys_jsSet _ _ _ _ h

/-- An existing CSS-matching key keeps the flag true after a merge pass. -/
theorem hasCss_monotone (m : List (String × LintStagedValue))
    (ds : List (String × List String)) (T : List String)
    (h : hasExistingCssPatterns m = true) :
    hasExistingCssPatterns (mergeLintStaged m ds T) = true := by
  unfold hasExistingCssPatterns at h ⊢
  rw [List.any_eq_true] at h ⊢
  obtain ⟨k, hk, hpat⟩ := h
  exact ⟨k, lintStagedFold_keys_monotone ds T _ m k hk, hpat⟩

/-! ## Idempotence of the three merge components -/

theorem foldl_id_of_step_id {α β : Type} (f : α → β → α) (a : α) (l : List β)
    (h : ∀ b ∈ l, f a b = a) : l.foldl f a = a := by
  induction l with
  | nil => rfl
  | cons hd tl ih =>
    rw [List.foldl_cons, h hd (by simp)]
    exact ih (fun b hb => h b (by simp [hb]))

theorem mem_mergedValue (v : Option LintStagedValue) (commands : List String) :
    ∀ c ∈ commands, c ∈ mergedValue v commands := by
  intro c hc
  rcases v with _ | v
  · exact hc
  · rcases v with s | l
    · by_cases hs : s = ""
      · simp [mergedValue, hs, hc]
      · simp only [mergedValue, if_neg hs]
        exact mem_unionCommands_right _ _ _ hc
    · exact mem_unionCommands_right _ _ _ hc

/-- A second lint-staged pass with the same defaults and targets changes
nothing (the default keys are distinct for every produced policy). -/
theorem mergeLintStaged_idempotent (m : List (String × LintStagedValue))
    (ds : List (String × List String)) (T : List String)
    (hnd : (ds.map Prod.fst).Nodup) :
    mergeLintStaged (mergeLintStaged m ds T) ds T = mergeLintStaged m ds T := by
  show ds.foldl (lintStagedStep T (hasExistingCssPatterns (mergeLintStaged m ds T)))
    (mergeLintStaged m ds T) = mergeLintStaged m ds T
  refine foldl_id_of_step_id _ _ _ ?_
  intro pc hpc
  unfold lintStagedStep
  by_cases hs₁ : (T.contains pc.1 && hasExistingCssPatterns (mergeLintStaged m ds T)) = true
  · rw [if_pos hs₁]
  · rw [if_neg hs₁]
    have hpc' : (pc.1, pc.2) ∈ ds := by simpa using hpc
    have hpt := lintStagedFold_pointwise ds T (hasExistingCssPatterns m) m pc.1 pc.2 hnd hpc'
    by_cases hs₀ : (T.contains pc.1 && hasExistingCssPatterns m) = true
    · exact absurd (by
        rw [Bool.and_eq_true] at hs₀ ⊢
        exact ⟨hs₀.1, hasCss_monotone m ds T hs₀.2⟩) hs₁
    · rw [if_neg hs₀] at hpt
      have hget : jsGet (mergeLintStaged m ds T) pc.1 =
          some (.list (mergedValue (jsGet m pc.1) pc.2)) := hpt
      rw [hget]
      have hunion : mergedValue (some (.list (mergedValue (jsGet m pc.1) pc.2))) pc.2 =
          mergedValue (jsGet m pc.1) pc.2 := by
        show unionCommands (mergedValue (jsGet m pc.1) pc.2) pc.2 = _
        exact unionCommands_id _ _ (mem_mergedValue (jsGet m pc.1) pc.2)
      rw [hunion]
      exact jsSet_same _ _ _ hget

/-- A second devDependencies pass changes nothing. -/
theorem devDepsMerge_idempotent (d : List (String × String)) (ts : Bool) :
    mergeMapStr (mergeMapStr d (getDefaultDevDependencies ts)) (getDefaultDevDependencies ts)
      = mergeMapStr d (getDefaultDevDependencies ts) := by
  refine mergeMapStr_id _ _ ?_
  intro kv hkv
  exact mergeMapStr_makes_truthy _ _ kv.1 kv.2 (getDefaultDevDependencies_values_ne_empty ts)
    (by simpa using hkv)

/-- A second scripts pass (defaults loop plus prepare rule) changes
nothing, provided the prepare rule has reached a fixed point after its
first application. -/
theorem scriptsMerge_idempotent (s : List (String × String)) (ts : Bool)
    (targets : List String)
    (hprep : prepareValue (some (prepareValue (jsGet s "prepare"))) =
      prepareValue (jsGet s "prepare")) :
    applyPrepare (mergeMapStr
        (applyPrepare (mergeMapStr s (getDefaultScripts ts targets)))
        (getDefaultScripts ts targets))
      = applyPrepare (mergeMapStr s (getDefaultScripts ts targets)) := by
  have hpre : jsGet (mergeMapStr s (getDefaultScripts ts targets)) "prepare"
      = jsGet s "prepare" :=
    mergeMapStr_preserves_other_keys _ _ _ (getDefaultScripts_no_prepare ts targets)
  have hs₂ : applyPrepare (mergeMapStr s (getDefaultScripts ts targets)) =
      jsSet (mergeMapStr s (getDefaultScripts ts targets)) "prepare"
        (prepareValue (jsGet s "prepare")) := by
    unfold applyPrepare
    rw [hpre]
  have hgetp : jsGet (applyPrepare (mergeMapStr s (getDefaultScripts ts targets))) "prepare"
      = some (prepareValue (jsGet s "prepare")) := by
    rw [hs₂]
    exact jsGet_jsSet_self _ _ _
  have hfold : mergeMapStr (applyPrepare (mergeMapStr s (getDefaultScripts ts targets)))
      (getDefaultScripts ts targets)
      = applyPrepare (mergeMapStr s (getDefaultScripts ts targets)) := by
    refine mergeMapStr_id _ _ ?_
    intro kv hkv
    have hne : "prepare" ≠ kv.1 :=
      fun h => getDefaultScripts_no_prepare ts targets kv hkv h.symm
    have heq : jsGet (applyPrepare (mergeMapStr s (getDefaultScripts ts targets))) kv.1
        = jsGet (mergeMapStr s (getDefaultScripts ts targets)) kv.1 := by
      rw [hs₂]
      exact jsGet_jsSet_ne _ _ _ _ hne
    rw [heq]
    exact mergeMapStr_makes_truthy _ _ kv.1 kv.2
      (getDefaultScripts_values_ne_empty ts targets) (by simpa using hkv)
  rw [hfold]
  show jsSet (applyPrepare (mergeMapStr s (getDefaultScripts ts targets))) "prepare"
      (prepareValue (jsGet (applyPrepare (mergeMapStr s (getDefaultScripts ts targets)))
        "prepare"))
    = applyPrepare (mergeMapStr s (getDefaultScripts ts targets))
  rw [hgetp, hprep]
  exact jsSet_same _ _ _ hgetp

/-! ## Claim C1: idempotence of the full merge -/

/-- **C1, counterexample.**  The full merge is not idempotent as claimed:
for an existing `prepare` script `"husky install install"` the first run
rewrites the legacy substring and produces `"husky install"`, which the
second run rewrites again to `"husky"`, so the second run's output
differs from the first run's. -/
theorem C1_counterexample :
    mergePackageConfig (mergePackageConfig
        ⟨[("prepare", "husky install install")], [], []⟩ false ["styles"]) false ["styles"]
      ≠ mergePackageConfig ⟨[("prepare", "husky install install")], [], []⟩ false ["styles"] := by
  intro h
  have h2 := congrArg (fun c => jsGet c.scripts "prepare") h
  exact absurd h2 (by decide)

/-- **C1, amended.**  For every existing configuration and every default
policy (computed from any TypeScript flag and stylelint-target list),
merging the result of a merge with the same defaults again yields exactly
the same configuration — scripts, devDependencies and lint-staged mapping
all unchanged — provided the prepare-script rule reaches a fixed point
after one application (this holds unless rewriting the legacy
`husky install` invocation reintroduces that very substring, as in the
counterexample `"husky install install"`). -/
theorem C1_merge_idempotent (pkg : PackageConfig) (ts : Bool) (targets : List String)
    (hprep : prepareValue (some (prepareValue (jsGet pkg.scripts "prepare"))) =
      prepareValue (jsGet pkg.scripts "prepare")) :
    mergePackageConfig (mergePackageConfig pkg ts targets) ts targets =
      mergePackageConfig pkg ts targets := by
  simp only [mergePackageConfig]
  rw [scriptsMerge_idempotent pkg.scripts ts targets hprep,
    devDepsMerge_idempotent pkg.devDependencies ts,
    mergeLintStaged_idempotent pkg.lintStaged _ targets
      (getDefaultLintStaged_nodup_keys ts targets)]

/-- **C1, witness.**  A concrete instance of the amended idempotence
theorem: an existing configuration with a `test` script and no `prepare`
script is a fixed point of the second merge run. -/
theorem C1_witness :
    prepareValue (some (prepareValue
        (jsGet ([("test", "jest")] : List (String × String)) "prepare"))) =
      prepareValue (jsGet ([("test", "jest")] : List (String × String)) "prepare") ∧
    mergePackageConfig (mergePackageConfig ⟨[("test", "jest")], [], []⟩ false ["app"])
        false ["app"]
      = mergePackageConfig ⟨[("test", "jest")], [], []⟩ false ["app"] :=
  ⟨by decide, C1_merge_idempotent ⟨[("test", "jest")], [], []⟩ false ["app"] (by decide)⟩

/-! ## Claim C2: scripts/devDependencies add-only-missing rule -/

/-- **C2, counterexample.**  A script key that is present with the empty
string as its value is not left untouched: `if (!scripts[name])` treats
the empty string as absent and overwrites it with the default command. -/
theorem C2_counterexample :
    jsGet (mergePackageConfig ⟨[("lint", "")], [], []⟩ false ["a.css"]).scripts "lint"
      ≠ some "" := by
  decide

/-- **C2, amended.**  For every default script name other than `prepare`
and every default devDependency: a key that is present with a non-empty
value keeps exactly its existing value, while a key that is absent or
holds the empty string receives the default value. -/
theorem C2_merge_only_missing (s d : List (String × String))
    (ls : List (String × LintStagedValue)) (ts : Bool) (targets : List String)
    (k : String) :
    (∀ v : String, jsGet s k = some v → v ≠ "" → k ≠ "prepare" →
      jsGet (mergePackageConfig ⟨s, d, ls⟩ ts targets).scripts k = some v) ∧
    (∀ v : String, truthyStr (jsGet s k) = false → (k, v) ∈ getDefaultScripts ts targets →
      jsGet (mergePackageConfig ⟨s, d, ls⟩ ts targets).scripts k = some v) ∧
    (∀ v : String, jsGet d k = some v → v ≠ "" →
      jsGet (mergePackageConfig ⟨s, d, ls⟩ ts targets).devDependencies k = some v) ∧
    (∀ v : String, truthyStr (jsGet d k) = false → (k, v) ∈ getDefaultDevDependencies ts →
      jsGet (mergePackageConfig ⟨s, d, ls⟩ ts targets).devDependencies k = some v) := by
  refine ⟨?_, ?_, ?_, ?_⟩ <;> intro v
  · intro hget hv hk
    simp only [mergePackageConfig]
    unfold applyPrepare
    rw [jsGet_jsSet_ne _ _ _ _ (fun h => hk h.symm)]
    exact mergeMapStr_preserves_truthy _ _ _ _ hget hv
  · intro hfalsy hmem
    have hk : k ≠ "prepare" := getDefaultScripts_no_prepare ts targets (k, v) hmem
    simp only [mergePackageConfig]
    unfold applyPrepare
    rw [jsGet_jsSet_ne _ _ _ _ (fun h => hk h.symm)]
    exact mergeMapStr_fills_falsy _ _ _ _ (getDefaultScripts_nodup_keys ts targets) hmem hfalsy
  · intro hget hv
    simp only [mergePackageConfig]
    exact mergeMapStr_preserves_truthy _ _ _ _ hget hv
  · intro hfalsy hmem
    simp only [mergePackageConfig]
    exact mergeMapStr_fills_falsy _ _ _ _ (getDefaultDevDependencies_nodup_keys ts) hmem hfalsy

/-- **C2, witness.**  Scenario B of the spec: an existing non-empty
`lint` script survives the merge unchanged. -/
theorem C2_witness :
    jsGet (mergePackageConfig ⟨[("lint", "custom lint")], [], []⟩ false
        ["w.css"]).scripts "lint" = some "custom lint" :=
  (C2_merge_only_missing [("lint", "custom lint")] [] [] false ["w.css"] "lint").1
    "custom lint" (by decide) (by decide) (by decide)

/-! ## Claim C10: frame property of the merge -/

/-- **C10.**  Every key of the existing scripts, devDependencies or
lint-staged mapping that is not a key of the corresponding default
mapping (and, for scripts, is not `prepare`) keeps exactly its existing
value — including the scalar-versus-list shape of lint-staged values,
since `jsGet` returns the stored `LintStagedValue` unchanged: the merge
iterates only over default keys. -/
theorem C10_frame_property (s d : List (String × String))
    (ls : List (String × LintStagedValue)) (ts : Bool) (targets : List String)
    (k : String) :
    (k ∉ (getDefaultScripts ts targets).map Prod.fst → k ≠ "prepare" →
      jsGet (mergePackageConfig ⟨s, d, ls⟩ ts targets).scripts k = jsGet s k) ∧
    (k ∉ (getDefaultDevDependencies ts).map Prod.fst →
      jsGet (mergePackageConfig ⟨s, d, ls⟩ ts targets).devDependencies k = jsGet d k) ∧
    (k ∉ (getDefaultLintStaged ts targets).map Prod.fst →
      jsGet (mergePackageConfig ⟨s, d, ls⟩ ts targets).lintStaged k = jsGet ls k) := by
  refine ⟨?_, ?_, ?_⟩
  · intro hnk hk
    simp only [mergePackageConfig]
    unfold applyPrepare
    rw [jsGet_jsSet_ne _ _ _ _ (fun h => hk h.symm)]
    exact mergeMapStr_preserves_other_keys _ _ _
      (fun kv hkv heq => hnk (List.mem_map.mpr ⟨kv, hkv, heq⟩))
  · intro hnk
    simp only [mergePackageConfig]
    exact mergeMapStr_preserves_other_keys _ _ _
      (fun kv hkv heq => hnk (List.mem_map.mpr ⟨kv, hkv, heq⟩))
  · intro hnk
    simp only [mergePackageConfig]
    exact lintStagedFold_preserves_other_keys _ _ _ _ _
      (fun pc hpc heq => hnk (List.mem_map.mpr ⟨pc, hpc, heq⟩))

/-- **C10, witness.**  A user-defined script, dependency and lint-staged
entry (scalar-shaped) that match no default key are all preserved. -/
theorem C10_witness :
    jsGet (mergePackageConfig
        ⟨[("deploy", "run deploy")], [("left-pad", "^1.0.0")],
          [("docs/*.md", .scalar "mdlint")]⟩ false ["w.css"]).scripts "deploy"
      = some "run deploy" ∧
    jsGet (mergePackageConfig
        ⟨[("deploy", "run deploy")], [("left-pad", "^1.0.0")],
          [("docs/*.md", .scalar "mdlint")]⟩ false ["w.css"]).devDependencies "left-pad"
      = some "^1.0.0" ∧
    jsGet (mergePackageConfig
        ⟨[("deploy", "run deploy")], [("left-pad", "^1.0.0")],
          [("docs/*.md", .scalar "mdlint")]⟩ false ["w.css"]).lintStaged "docs/*.md"
      = some (.scalar "mdlint") := by
  have h := C10_frame_property [("deploy", "run deploy")] [("left-pad", "^1.0.0")]
    [("docs/*.md", .scalar "mdlint")] false ["w.css"]
  exact ⟨(h "deploy").1 (by decide) (by decide) |>.trans (by decide),
    (h "left-pad").2.1 (by decide) |>.trans (by decide),
    (h "docs/*.md").2.2 (by decide) |>.trans (by decide)⟩

/-! ## Claim C5: the bespoke prepare rule -/

/-- The prepare rule exactly as the claim words it (only a wholly
*absent* script is replaced by the bare invocation; a present value —
the empty string included — goes through the contains/append cases). -/
def claimedPrepareRule : Option String → String
  | none => "husky"
  | some s =>
    if strContains s "husky install" then jsReplaceAll s "husky install" "husky"
    else if !(strContains s "husky") then s ++ " && husky"
    else s

/-- **C5, counterexample.**  An existing `prepare` script holding the
empty string is present and contains neither invocation, so the claim
prescribes appending (yielding `" && husky"`); the code treats the empty
string as absent (`if (!prepareScript)`) and stores `"husky"` instead. -/
theorem C5_counterexample :
    jsGet (mergePackageConfig ⟨[("prepare", "")], [], []⟩ false ["a.css"]).scripts "prepare"
      ≠ some (claimedPrepareRule (some "")) := by
  decide

/-- **C5, amended.**  The merged `prepare` script is the prepare rule
applied to the original value (the defaults loop never touches the
`prepare` key), where the rule is as claimed — absent → `husky`, legacy
`husky install` occurrences rewritten to `husky`, no `husky` at all →
append `" && husky"`, otherwise unchanged — except that an *empty*
existing value is treated like an absent one and set to `husky`. -/
theorem C5_prepare_rule (s d : List (String × String))
    (ls : List (String × LintStagedValue)) (ts : Bool) (targets : List String) :
    jsGet (mergePackageConfig ⟨s, d, ls⟩ ts targets).scripts "prepare"
      = some (prepareValue (jsGet s "prepare")) ∧
    prepareValue none = claimedPrepareRule none ∧
    (∀ v : String, v ≠ "" → prepareValue (some v) = claimedPrepareRule (some v)) ∧
    prepareValue (some "") = "husky" := by
  refine ⟨?_, rfl, ?_, rfl⟩
  · have hpre : jsGet (mergeMapStr s (getDefaultScripts ts targets)) "prepare"
        = jsGet s "prepare" :=
      mergeMapStr_preserves_other_keys _ _ _ (getDefaultScripts_no_prepare ts targets)
    simp only [mergePackageConfig]
    unfold applyPrepare
    rw [hpre]
    exact jsGet_jsSet_self _ _ _
  · intro v hv
    simp only [prepareValue, claimedPrepareRule, if_neg hv]

/-- **C5, witness.**  Scenario E of the spec: `prepare == "custom-step"`
contains no `husky`, so the modern invocation is appended. -/
theorem C5_witness :
    jsGet (mergePackageConfig ⟨[("prepare", "custom-step")], [], []⟩ false
        ["w.css"]).scripts "prepare" = some "custom-step && husky" :=
  (C5_prepare_rule [("prepare", "custom-step")] [] [] false ["w.css"]).1.trans (by decide)

/-! ## Claim C6: loading and validating package.json -/

/-- **C6.**  Evaluation of the load/validation phase: empty or
unparseable content and parsed non-mapping scalars (`"…"`, `null`) halt
the run, and an absent file yields the fresh default object — but a
parsed JSON *array*, a non-mapping value, slips through the
`typeof pkg !== 'object' || pkg === null` check and is accepted,
contradicting the claim (and the code's own error message that
package.json "must contain a valid JSON object"). -/
theorem C6_loader_behaviour (p : String) :
    loadPackageJson (.parsed (.arr [])) p = .ok (.arr []) ∧
    loadPackageJson .malformed p = .fatal ∧
    loadPackageJson .emptyContent p = .fatal ∧
    loadPackageJson (.parsed (.str "not a mapping")) p = .fatal ∧
    loadPackageJson (.parsed .null) p = .fatal ∧
    loadPackageJson (.parsed (.num 3)) p = .fatal ∧
    loadPackageJson (.parsed (.bool true)) p = .fatal ∧
    loadPackageJson .absent p = .ok (newPackageJson p) :=
  ⟨rfl, rfl, rfl, rfl, rfl, rfl, rfl, rfl⟩

/-! ## Claim C8: the scanner result is never empty -/

/-- **C8.**  For every root directory listing the scanner's output is
non-empty, and when no root style file is found and no subdirectory is
marked the result is exactly the single full-tree blanket glob. -/
theorem C8_scanner_fallback (entries : List FSEntry) :
    findStylelintTargets entries ≠ [] ∧
    (hasRootCssFlag entries = false → targetDirNames entries = [] →
      findStylelintTargets entries = [STYLELINT_DEFAULT_TARGET]) := by
  constructor
  · show (if ((if hasRootCssFlag entries then [STYLELINT_EXTENSION_GLOB] else []) ++
        (sortedTargetDirs entries).map
          (fun dir => dir ++ "/**/" ++ STYLELINT_EXTENSION_GLOB)).isEmpty then
        [STYLELINT_DEFAULT_TARGET]
      else
        (if hasRootCssFlag entries then [STYLELINT_EXTENSION_GLOB] else []) ++
        (sortedTargetDirs entries).map
          (fun dir => dir ++ "/**/" ++ STYLELINT_EXTENSION_GLOB)) ≠ []
    by_cases h : ((if hasRootCssFlag entries then [STYLELINT_EXTENSION_GLOB] else []) ++
        (sortedTargetDirs entries).map
          (fun dir => dir ++ "/**/" ++ STYLELINT_EXTENSION_GLOB)).isEmpty = true
    · rw [if_pos h]
      simp
    · rw [if_neg h]
      rw [Bool.not_eq_true, List.isEmpty_eq_false_iff_exists_mem] at h
      obtain ⟨x, hx⟩ := h
      exact List.ne_nil_of_mem hx
  · intro hflag hdirs
    have hsorted : sortedTargetDirs entries = [] := by
      unfold sortedTargetDirs setDedup
      rw [hdirs]
      rfl
    show (if ((if hasRootCssFlag entries then [STYLELINT_EXTENSION_GLOB] else []) ++
        (sortedTargetDirs entries).map
          (fun dir => dir ++ "/**/" ++ STYLELINT_EXTENSION_GLOB)).isEmpty then
        [STYLELINT_DEFAULT_TARGET]
      else _) = [STYLELINT_DEFAULT_TARGET]
    rw [hflag, hsorted]
    rfl

/-- **C8, witness.**  Scanning an empty directory yields exactly the
single blanket glob (and in particular a non-empty result). -/
theorem C8_witness :
    findStylelintTargets [] ≠ [] ∧
    findStylelintTargets [] = [STYLELINT_DEFAULT_TARGET] :=
  ⟨(C8_scanner_fallback []).1, (C8_scanner_fallback []).2 (by decide) (by decide)⟩

/-! ## Claim C4: the lint-staged union rule -/

theorem mergedValue_truthy (v : LintStagedValue) (commands : List String)
    (ht : truthyLS (some v) = true) :
    mergedValue (some v) commands = unionCommands (toCommandList v) commands := by
  rcases v with s | l
  · have hs : ¬ s = "" := by simpa [truthyLS] using ht
    simp [mergedValue, toCommandList, hs]
  · rfl

/-- **C4, counterexample.**  For an existing scalar empty-string value
(present in both mappings, not style-skipped) the claim predicts the
coerced existing list followed by the missing defaults, i.e.
`["", "prettier --write"]`; the code treats the empty scalar as falsy
and stores the default list `["prettier --write"]` verbatim instead. -/
theorem C4_counterexample :
    jsGet (mergeLintStaged [("package.json", LintStagedValue.scalar "")]
        (getDefaultLintStaged false ["a.css"]) ["a.css"]) "package.json"
      ≠ some (.list ["", "prettier --write"]) ∧
    jsGet (mergeLintStaged [("package.json", LintStagedValue.scalar "")]
        (getDefaultLintStaged false ["a.css"]) ["a.css"]) "package.json"
      = some (.list ["prettier --write"]) := by
  exact ⟨by decide, by decide⟩

/-- **C4, amended.**  For every lint-staged key present in both the
existing configuration and the defaults with a *truthy* existing value
(any list, or a non-empty scalar) and not suppressed by the style-skip
rule, the merged value is the existing value coerced to a list followed
by exactly those default commands not already present (exact string
equality); the coerced existing entries form a prefix of the merged
list, and the merged list contains every element of both sides. -/
theorem C4_union_rule (m : List (String × LintStagedValue)) (ts : Bool)
    (targets : List String) (p : String) (cmds : List String) (v : LintStagedValue)
    (hmem : (p, cmds) ∈ getDefaultLintStaged ts targets)
    (hget : jsGet m p = some v)
    (ht : truthyLS (some v) = true)
    (hskip : ¬(targets.contains p = true ∧ hasExistingCssPatterns m = true)) :
    jsGet (mergeLintStaged m (getDefaultLintStaged ts targets) targets) p
      = some (.list (unionCommands (toCommandList v) cmds)) ∧
    unionCommands (toCommandList v) cmds
      = toCommandList v ++ cmds.filter (fun c => !((toCommandList v).contains c)) ∧
    toCommandList v <+: unionCommands (toCommandList v) cmds ∧
    (∀ c : String, c ∈ cmds ∨ c ∈ toCommandList v →
      c ∈ unionCommands (toCommandList v) cmds) := by
  refine ⟨?_, ?_, unionCommands_preserves_existing _ _, ?_⟩
  · have hpt := lintStagedFold_pointwise (getDefaultLintStaged ts targets) targets
      (hasExistingCssPatterns m) m p cmds (getDefaultLintStaged_nodup_keys ts targets) hmem
    have hcond : (targets.contains p && hasExistingCssPatterns m) ≠ true := by
      intro hb
      rw [Bool.and_eq_true] at hb
      exact hskip hb
    rw [if_neg hcond] at hpt
    have hpt' : jsGet (mergeLintStaged m (getDefaultLintStaged ts targets) targets) p
        = some (LintStagedValue.list (mergedValue (jsGet m p) cmds)) := hpt
    rw [hpt', hget, mergedValue_truthy v cmds ht]
  · exact unionCommands_eq_append_filter _ _
      (getDefaultLintStaged_values_nodup ts targets (p, cmds) hmem)
  · intro c hc
    rcases hc with hc | hc
    · exact mem_unionCommands_right _ _ _ hc
    · exact mem_unionCommands_left _ _ _ hc

/-- **C4, witness.**  Scenario A of the spec: existing
`"package.json": ["custom-command"]` is unioned with the default
`["prettier --write"]`, keeping the existing entry as prefix. -/
theorem C4_witness :
    jsGet (mergeLintStaged [("package.json", LintStagedValue.list ["custom-command"])]
        (getDefaultLintStaged false ["w.css"]) ["w.css"]) "package.json"
      = some (.list (unionCommands (toCommandList (.list ["custom-command"]))
          ["prettier --write"])) :=
  (C4_union_rule [("package.json", LintStagedValue.list ["custom-command"])] false
    ["w.css"] "package.json" ["prettier --write"] (.list ["custom-command"])
    (by decide) (by decide) (by decide) (by decide)).1

/-! ## Claim C3: the style-skip rule -/

theorem setDedupAux_subset (l : List String) :
    ∀ seen x, x ∈ setDedupAux seen l → x ∈ l := by
  induction l with
  | nil => intro seen x hx; simp [setDedupAux] at hx
  | cons a rest ih =>
    intro seen x hx
    by_cases hc : seen.contains a = true
    · simp only [setDedupAux, if_pos hc] at hx
      exact List.mem_cons_of_mem _ (ih seen x hx)
    · rw [Bool.not_eq_true] at hc
      simp only [setDedupAux, hc, Bool.false_eq_true, if_false, List.mem_cons] at hx
      rcases hx with hx | hx
      · simp [hx]
      · exact List.mem_cons_of_mem _ (ih _ x hx)

theorem setDedup_subset (l : List String) : ∀ x ∈ setDedup l, x ∈ l :=
  fun x hx => setDedupAux_subset l [] x hx

theorem string_data_append (a b : String) : (a ++ b).data = a.data ++ b.data := by
  obtain ⟨da⟩ := a
  obtain ⟨db⟩ := b
  rfl

/-- Every glob produced by the scanner ends with the extension-group
text `*.{css,scss,sass,less,pcss}`. -/
theorem findStylelintTargets_suffix (entries : List FSEntry) :
    ∀ t ∈ findStylelintTargets entries,
      STYLELINT_EXTENSION_GLOB.data <:+ t.data := by
  intro t ht
  show STYLELINT_EXTENSION_GLOB.data <:+ t.data
  have hcases : t ∈ (if ((if hasRootCssFlag entries then [STYLELINT_EXTENSION_GLOB] else []) ++
      (sortedTargetDirs entries).map
        (fun dir => dir ++ "/**/" ++ STYLELINT_EXTENSION_GLOB)).isEmpty then
      [STYLELINT_DEFAULT_TARGET]
    else
      (if hasRootCssFlag entries then [STYLELINT_EXTENSION_GLOB] else []) ++
      (sortedTargetDirs entries).map
        (fun dir => dir ++ "/**/" ++ STYLELINT_EXTENSION_GLOB)) := ht
  by_cases hempty : ((if hasRootCssFlag entries then [STYLELINT_EXTENSION_GLOB] else []) ++
      (sortedTargetDirs entries).map
        (fun dir => dir ++ "/**/" ++ STYLELINT_EXTENSION_GLOB)).isEmpty = true
  · rw [if_pos hempty] at hcases
    have : t = STYLELINT_DEFAULT_TARGET := by simpa using hcases
    rw [this]
    decide
  · rw [if_neg hempty] at hcases
    rcases List.mem_append.mp hcases with h | h
    · by_cases hflag : hasRootCssFlag entries = true
      · rw [if_pos hflag] at h
        have : t = STYLELINT_EXTENSION_GLOB := by simpa using h
        rw [this]
      · rw [Bool.not_eq_true] at hflag
        rw [hflag] at h
        simp at h
    · obtain ⟨dir, _, hdir⟩ := List.mem_map.mp h
      rw [← hdir, string_data_append]
      exact List.suffix_append _ _

theorem findStylelintTargets_ne_empty_string (entries : List FSEntry) :
    ∀ t ∈ findStylelintTargets entries, t ≠ "" := by
  intro t ht heq
  have hs := findStylelintTargets_suffix entries t ht
  rw [heq] at hs
  have : STYLELINT_EXTENSION_GLOB.data = [] := List.suffix_nil.mp hs
  exact absurd this (by decide)

/-- The three fixed base entries of the default lint-staged mapping. -/
def baseLintStagedEntries (typescript : Bool) : List (String × List String) :=
  [("package.json", ["prettier --write"]),
   ((if typescript then TS_LINT_STAGED_PATTERN else JS_LINT_STAGED_PATTERN),
     ["eslint --fix", "prettier --write"]),
   ("**/*.\x7bjson,md,yml,yaml\x7d", ["prettier --write"])]

theorem base_keys_no_style_suffix (ts : Bool) :
    ∀ kv ∈ baseLintStagedEntries ts, ¬ (STYLELINT_EXTENSION_GLOB.data <:+ kv.1.data) := by
  cases ts <;> decide

theorem setDedupAux_spec (l : List String) :
    ∀ seen, (setDedupAux seen l).Nodup ∧ ∀ x ∈ setDedupAux seen l, x ∉ seen := by
  induction l with
  | nil => intro seen; simp [setDedupAux]
  | cons a rest ih =>
    intro seen
    by_cases hc : seen.contains a = true
    · simpa only [setDedupAux, if_pos hc] using ih seen
    · rw [Bool.not_eq_true] at hc
      simp only [setDedupAux, hc, Bool.false_eq_true, if_false]
      obtain ⟨hnd, hns⟩ := ih (a :: seen)
      have hna : a ∉ seen := by simpa using hc
      constructor
      · refine List.nodup_cons.mpr ⟨?_, hnd⟩
        intro hmem
        exact hns a hmem (by simp)
      · intro x hx
        rcases List.mem_cons.mp hx with hx | hx
        · subst hx; exact hna
        · intro hmem
          exact hns x hx (by simp [hmem])

theorem setDedup_nodup (l : List String) : (setDedup l).Nodup :=
  (setDedupAux_spec l []).1

/-- Normalization is plain first-occurrence deduplication on scanner
output (whose entries are non-empty, and which is itself non-empty). -/
theorem normalize_scanner_targets (entries : List FSEntry) :
    normalizeStylelintTargets (findStylelintTargets entries)
      = setDedup (findStylelintTargets entries) := by
  have hne : findStylelintTargets entries ≠ [] := (C8_scanner_fallback entries).1
  have hfilter : (findStylelintTargets entries).filter (fun t => t ≠ "")
      = findStylelintTargets entries := by
    rw [List.filter_eq_self]
    intro a ha
    exact decide_eq_true (findStylelintTargets_ne_empty_string entries a ha)
  have hempty : ((findStylelintTargets entries).filter (fun t => t ≠ "")).isEmpty = false := by
    rw [hfilter, List.isEmpty_eq_false_iff_exists_mem]
    exact List.exists_mem_of_ne_nil _ hne
  show (if ((findStylelintTargets entries).filter (fun t => t ≠ "")).isEmpty = true
      then [DEFAULT_STYLELINT_TARGET]
      else setDedup ((findStylelintTargets entries).filter (fun t => t ≠ "")))
    = setDedup (findStylelintTargets entries)
  rw [hempty]
  simp only [Bool.false_eq_true, if_false]
  rw [hfilter]

theorem jsSet_append_of_not_mem {α : Type} (m : List (String × α)) (k : String) (v : α)
    (h : k ∉ m.map Prod.fst) : jsSet m k v = m ++ [(k, v)] := by
  induction m with
  | nil => rfl
  | cons hd tl ih =>
    obtain ⟨k₀, v₀⟩ := hd
    simp only [List.map_cons, List.mem_cons] at h
    push_neg at h
    have hne : k₀ ≠ k := fun hk => h.1 hk.symm
    simp only [jsSet, if_neg hne, List.cons_append, List.cons.injEq, true_and]
    exact ih h.2

theorem foldl_jsSet_disjoint {α : Type} (ns : List String) (c : α)
    (acc : List (String × α))
    (hdisj : ∀ t ∈ ns, t ∉ acc.map Prod.fst) (hnd : ns.Nodup) :
    ns.foldl (fun a t => jsSet a t c) acc = acc ++ ns.map (fun t => (t, c)) := by
  induction ns generalizing acc with
  | nil => simp
  | cons t tl ih =>
    rw [List.foldl_cons, jsSet_append_of_not_mem acc t c (hdisj t (by simp))]
    rw [List.nodup_cons] at hnd
    rw [ih _ ?_ hnd.2]
    · simp
    · intro u hu
      rw [List.map_append]
      intro hmem
      rcases List.mem_append.mp hmem with h | h
      · exact hdisj u (by simp [hu]) h
      · have : u = t := by simpa using h
        exact hnd.1 (this ▸ hu)

/-- On scanner output the default lint-staged mapping is the three base
entries followed by one entry per deduplicated style target. -/
theorem getDefaultLintStaged_split (entries : List FSEntry) (ts : Bool) :
    getDefaultLintStaged ts (findStylelintTargets entries)
      = baseLintStagedEntries ts ++
        (setDedup (findStylelintTargets entries)).map
          (fun t => (t, ["stylelint --fix", "prettier --write"])) := by
  have hstart : getDefaultLintStaged ts (findStylelintTargets entries)
      = (normalizeStylelintTargets (findStylelintTargets entries)).foldl
          (fun acc target => jsSet acc target ["stylelint --fix", "prettier --write"])
          (baseLintStagedEntries ts) := rfl
  rw [hstart, normalize_scanner_targets]
  refine foldl_jsSet_disjoint _ _ _ ?_ (setDedup_nodup _)
  intro t ht hmem
  obtain ⟨kv, hkv, hfst⟩ := List.mem_map.mp hmem
  have hsuf := findStylelintTargets_suffix entries t (setDedup_subset _ t ht)
  rw [← hfst] at hsuf
  exact base_keys_no_style_suffix ts kv hkv hsuf

theorem foldl_id_all {α β : Type} (f : α → β → α) (l : List β)
    (h : ∀ (x : α) (b : β), b ∈ l → f x b = x) : ∀ a, l.foldl f a = a := by
  induction l with
  | nil => intro a; rfl
  | cons hd tl ih =>
    intro a
    rw [List.foldl_cons, h a hd (by simp)]
    exact ih (fun x b hb => h x b (by simp [hb])) a

/-- **C3.**  If the existing lint-staged mapping has at least one key
whose lowercased text contains `.` + a recognized style extension, then
merging the defaults computed from any scanner output equals merging the
three non-style base entries alone (no default style-target key has any
effect, however many targets the scanner discovered), and every
scanner-produced style-target key is left exactly as it was in the
existing mapping. -/
theorem C3_style_skip (entries : List FSEntry) (m : List (String × LintStagedValue))
    (ts : Bool) (hcss : hasExistingCssPatterns m = true) :
    mergeLintStaged m (getDefaultLintStaged ts (findStylelintTargets entries))
        (findStylelintTargets entries)
      = mergeLintStaged m (baseLintStagedEntries ts) (findStylelintTargets entries) ∧
    (∀ p, p ∈ findStylelintTargets entries →
      jsGet (mergeLintStaged m (getDefaultLintStaged ts (findStylelintTargets entries))
        (findStylelintTargets entries)) p = jsGet m p) := by
  have hmain : mergeLintStaged m (getDefaultLintStaged ts (findStylelintTargets entries))
      (findStylelintTargets entries)
      = mergeLintStaged m (baseLintStagedEntries ts) (findStylelintTargets entries) := by
    rw [getDefaultLintStaged_split entries ts]
    show (baseLintStagedEntries ts ++
        (setDedup (findStylelintTargets entries)).map
          (fun t => (t, ["stylelint --fix", "prettier --write"]))).foldl
        (lintStagedStep (findStylelintTargets entries) (hasExistingCssPatterns m)) m
      = mergeLintStaged m (baseLintStagedEntries ts) (findStylelintTargets entries)
    rw [List.foldl_append]
    refine foldl_id_all _ _ ?_ _
    intro x pc hpc
    obtain ⟨t, ht, hpt⟩ := List.mem_map.mp hpc
    have htT : (findStylelintTargets entries).contains t = true := by
      have := setDedup_subset (findStylelintTargets entries) t ht
      simpa using this
    unfold lintStagedStep
    rw [← hpt]
    simp only [htT, hcss, Bool.and_self, if_true]
  refine ⟨hmain, ?_⟩
  intro p hp
  rw [hmain]
  have hsuf := findStylelintTargets_suffix entries p hp
  refine lintStagedFold_preserves_other_keys _ _ _ _ _ ?_
  intro kv hkv heq
  exact base_keys_no_style_suffix ts kv hkv (heq ▸ hsuf)

/-- **C3, witness.**  Scenario F of the spec: an existing
`src/**/*.css` key (which matches `.css`) suppresses the scanner's
root-level style glob entirely. -/
theorem C3_witness :
    hasExistingCssPatterns [("src/**/*.css", LintStagedValue.scalar "stylelint --fix")]
      = true ∧
    jsGet (mergeLintStaged [("src/**/*.css", LintStagedValue.scalar "stylelint --fix")]
        (getDefaultLintStaged false (findStylelintTargets [FSEntry.file "a.css"]))
        (findStylelintTargets [FSEntry.file "a.css"])) STYLELINT_EXTENSION_GLOB
      = jsGet [("src/**/*.css", LintStagedValue.scalar "stylelint --fix")]
          STYLELINT_EXTENSION_GLOB :=
  ⟨by decide,
    (C3_style_skip [FSEntry.file "a.css"]
      [("src/**/*.css", LintStagedValue.scalar "stylelint --fix")] false (by decide)).2
      STYLELINT_EXTENSION_GLOB (by decide)⟩

/-! ## Claim C9: the bounded-depth containment check -/

/-- A style file reachable `k` directory levels below a listing, through
non-symlink, non-excluded directories: `k = 0` means a matching file
entry in the listing itself, `k + 1` means inside a non-excluded
subdirectory at depth `k` relative to that subdirectory's listing. -/
inductive StyleFileAtDepth : Nat → List FSEntry → Prop where
  | file {entries : List FSEntry} {n : String}
      (hmem : FSEntry.file n ∈ entries) (hstyle : isStylelintFile n = true) :
      StyleFileAtDepth 0 entries
  | dir {entries : List FSEntry} {n : String} {children : List FSEntry} {k : Nat}
      (hmem : FSEntry.dir n children ∈ entries)
      (hexcl : STYLELINT_SCAN_EXCLUDES.contains n = false)
      (hrec : StyleFileAtDepth k children) :
      StyleFileAtDepth (k + 1) entries

theorem directoryScanFuel_characterization (fuel : Nat) :
    ∀ (entries : List FSEntry) (d : Nat), fuel + d = MAX_STYLELINT_SCAN_DEPTH + 1 →
      (directoryScanFuel fuel entries d = true ↔
        ∃ k, k + d ≤ MAX_STYLELINT_SCAN_DEPTH ∧ StyleFileAtDepth k entries) := by
  induction fuel with
  | zero =>
    intro entries d hd
    constructor
    · intro h
      exact absurd h (by simp [directoryScanFuel])
    · rintro ⟨k, hk, _⟩
      omega
  | succ fuel ih =>
    intro entries d hd
    constructor
    · intro h
      rw [directoryScanFuel, List.any_eq_true] at h
      obtain ⟨e, he, hfe⟩ := h
      match e with
      | .file n =>
        exact ⟨0, by omega, .file he hfe⟩
      | .symlink n =>
        simp at hfe
      | .dir n children =>
        rw [Bool.and_eq_true] at hfe
        obtain ⟨hexcl, hif⟩ := hfe
        rw [Bool.not_eq_true'] at hexcl
        by_cases hguard : MAX_STYLELINT_SCAN_DEPTH < d + 1
        · rw [if_pos hguard] at hif
          exact absurd hif (by simp)
        · rw [if_neg hguard] at hif
          obtain ⟨k, hk, hat⟩ := (ih children (d + 1) (by omega)).mp hif
          exact ⟨k + 1, by omega, .dir he hexcl hat⟩
    · rintro ⟨k, hk, hat⟩
      rw [directoryScanFuel, List.any_eq_true]
      cases hat with
      | file hmem hstyle => exact ⟨_, hmem, hstyle⟩
      | @dir _ n children k' hmem hexcl hrec =>
        refine ⟨FSEntry.dir n children, hmem, ?_⟩
        show (!(STYLELINT_SCAN_EXCLUDES.contains n) &&
          (if MAX_STYLELINT_SCAN_DEPTH < d + 1 then false
           else directoryScanFuel fuel children (d + 1))) = true
        rw [Bool.and_eq_true, Bool.not_eq_true']
        refine ⟨hexcl, ?_⟩
        rw [if_neg (by omega)]
        exact (ih children (d + 1) (by omega)).mpr ⟨k', by omega, hrec⟩

/-- **C9.**  The per-subdirectory containment check, started at depth 0
on the subdirectory's listing, returns true exactly when some matching
file lies in a directory at depth at most `MAX_STYLELINT_SCAN_DEPTH = 4`
relative to that subdirectory (through non-symlink, non-excluded
directories); any matching file nested strictly beyond the bound is
invisible, because the recursion stops descending there. -/
theorem C9_depth_bound (children : List FSEntry) :
    directoryContainsStylelintFiles children 0 = true ↔
      ∃ k, k ≤ MAX_STYLELINT_SCAN_DEPTH ∧ StyleFileAtDepth k children := by
  have h := directoryScanFuel_characterization (MAX_STYLELINT_SCAN_DEPTH + 1) children 0
    (by omega)
  have hdef : directoryContainsStylelintFiles children 0
      = directoryScanFuel (MAX_STYLELINT_SCAN_DEPTH + 1) children 0 := by
    show (if MAX_STYLELINT_SCAN_DEPTH < 0 then false
      else directoryScanFuel (MAX_STYLELINT_SCAN_DEPTH + 1 - 0) children 0) = _
    rw [if_neg (by omega), Nat.sub_zero]
  rw [hdef, h]
  constructor
  · rintro ⟨k, hk, hat⟩
    exact ⟨k, by omega, hat⟩
  · rintro ⟨k, hk, hat⟩
    exact ⟨k, by omega, hat⟩

/-- **C9, witness.**  A style file four directory levels below a
subdirectory is found by the bounded scan (its depth is exactly the
bound); the characterization converts the scan's success into the
existence of such a file. -/
theorem C9_witness :
    ∃ k, k ≤ MAX_STYLELINT_SCAN_DEPTH ∧
      StyleFileAtDepth k
        [FSEntry.dir "a" [FSEntry.dir "b" [FSEntry.dir "c"
          [FSEntry.dir "d" [FSEntry.file "x.css"]]]]] :=
  (C9_depth_bound [FSEntry.dir "a" [FSEntry.dir "b" [FSEntry.dir "c"
    [FSEntry.dir "d" [FSEntry.file "x.css"]]]]]).mp (by decide)

/-! ## Claim C7: result construction of the scanner -/

theorem char_eq_of_toNat_eq (a b : Char) (h : a.toNat = b.toNat) : a = b := by
  apply Char.ext
  exact UInt32.toNat.inj h

theorem leChars_total (a : List Char) : ∀ b, leChars a b = true ∨ leChars b a = true := by
  induction a with
  | nil => intro b; exact Or.inl rfl
  | cons x xs ih =>
    intro b
    match b with
    | [] => exact Or.inr rfl
    | y :: ys =>
      by_cases hxy : x.toNat < y.toNat
      · exact Or.inl (by simp [leChars, hxy])
      · by_cases hyx : y.toNat < x.toNat
        · exact Or.inr (by simp [leChars, hyx])
        · rcases ih ys with h | h
          · exact Or.inl (by simp [leChars, hxy, hyx, h])
          · exact Or.inr (by simp [leChars, hxy, hyx, h])

theorem leChars_trans (a : List Char) :
    ∀ b c, leChars a b = true → leChars b c = true → leChars a c = true := by
  induction a with
  | nil => intro b c _ _; rfl
  | cons x xs ih =>
    intro b c hab hbc
    match b, c with
    | [], _ => simp [leChars] at hab
    | _ :: _, [] => simp [leChars] at hbc
    | y :: ys, z :: zs =>
      simp only [leChars] at hab hbc ⊢
      by_cases hxy : x.toNat < y.toNat
      · by_cases hyz : y.toNat < z.toNat
        · simp [show x.toNat < z.toNat by omega]
        · by_cases hzy : z.toNat < y.toNat
          · rw [if_neg hyz, if_pos hzy] at hbc
            simp at hbc
          · simp [show x.toNat < z.toNat by omega]
      · by_cases hyx : y.toNat < x.toNat
        · rw [if_neg hxy, if_pos hyx] at hab
          simp at hab
        · rw [if_neg hxy, if_neg hyx] at hab
          by_cases hyz : y.toNat < z.toNat
          · simp [show x.toNat < z.toNat by omega]
          · by_cases hzy : z.toNat < y.toNat
            · rw [if_neg hyz, if_pos hzy] at hbc
              simp at hbc
            · rw [if_neg hyz, if_neg hzy] at hbc
              rw [if_neg (show ¬ x.toNat < z.toNat by omega),
                if_neg (show ¬ z.toNat < x.toNat by omega)]
              exact ih ys zs hab hbc

theorem leChars_antisymm (a : List Char) :
    ∀ b, leChars a b = true → leChars b a = true → a = b := by
  induction a with
  | nil =>
    intro b _ hba
    match b with
    | [] => rfl
    | _ :: _ => simp [leChars] at hba
  | cons x xs ih =>
    intro b hab hba
    match b with
    | [] => simp [leChars] at hab
    | y :: ys =>
      simp only [leChars] at hab hba
      by_cases hxy : x.toNat < y.toNat
      · rw [if_neg (show ¬ y.toNat < x.toNat by omega), if_pos hxy] at hba
        simp at hba
      · by_cases hyx : y.toNat < x.toNat
        · rw [if_neg hxy, if_pos hyx] at hab
          simp at hab
        · rw [if_neg hxy, if_neg hyx] at hab
          rw [if_neg (fun h => hxy (by omega)), if_neg (fun h => hyx (by omega))] at hba
          rw [char_eq_of_toNat_eq x y (by omega), ih ys hab hba]

theorem strLeb_total : ∀ a b : String, strLeb a b = true ∨ strLeb b a = true :=
  fun a b => leChars_total a.data b.data

theorem strLeb_trans : ∀ a b c : String,
    strLeb a b = true → strLeb b c = true → strLeb a c = true :=
  fun a b c => leChars_trans a.data b.data c.data

theorem strLeb_antisymm : ∀ a b : String, strLeb a b = true → strLeb b a = true → a = b := by
  intro a b hab hba
  obtain ⟨da⟩ := a
  obtain ⟨db⟩ := b
  rw [leChars_antisymm da db hab hba]

theorem setDedupAux_mem_of (l : List String) :
    ∀ seen x, x ∈ l → x ∉ seen → x ∈ setDedupAux seen l := by
  induction l with
  | nil => intro seen x hx _; simp at hx
  | cons a rest ih =>
    intro seen x hx hns
    by_cases hc : seen.contains a = true
    · simp only [setDedupAux, if_pos hc]
      rcases List.mem_cons.mp hx with hx | hx
      · subst hx
        exact absurd (by simpa using hc) hns
      · exact ih seen x hx hns
    · rw [Bool.not_eq_true] at hc
      simp only [setDedupAux, hc, Bool.false_eq_true, if_false]
      by_cases hxa : x = a
      · simp [hxa]
      · rcases List.mem_cons.mp hx with hx | hx
        · exact absurd hx hxa
        · exact List.mem_cons_of_mem _ (ih (a :: seen) x hx (by simp [hxa, hns]))

theorem setDedup_mem (l : List String) (x : String) : x ∈ setDedup l ↔ x ∈ l :=
  ⟨setDedup_subset l x, fun h => setDedupAux_mem_of l [] x h (by simp)⟩

theorem any_congr_perm {α : Type} (p : α → Bool) {l₁ l₂ : List α}
    (h : l₁.Perm l₂) : l₁.any p = l₂.any p := by
  by_cases hb : l₁.any p = true
  · rw [hb]
    rw [List.any_eq_true] at hb
    obtain ⟨x, hx, hpx⟩ := hb
    exact (List.any_eq_true.mpr ⟨x, h.mem_iff.mp hx, hpx⟩).symm
  · rw [Bool.not_eq_true] at hb
    rw [hb]
    by_cases hb' : l₂.any p = true
    · rw [List.any_eq_true] at hb'
      obtain ⟨x, hx, hpx⟩ := hb'
      exact absurd (List.any_eq_true.mpr ⟨x, h.mem_iff.mpr hx, hpx⟩) (by simp [hb])
    · rw [Bool.not_eq_true] at hb'
      exact hb'.symm

/-- When root style files exist there is no fallback: the result is the
root-level glob followed by the sorted per-directory globs. -/
theorem findStylelintTargets_structure (entries : List FSEntry)
    (hflag : hasRootCssFlag entries = true) :
    findStylelintTargets entries
      = STYLELINT_EXTENSION_GLOB :: (sortedTargetDirs entries).map
          (fun dir => dir ++ "/**/" ++ STYLELINT_EXTENSION_GLOB) := by
  show (if ((if hasRootCssFlag entries then [STYLELINT_EXTENSION_GLOB] else []) ++
      (sortedTargetDirs entries).map
        (fun dir => dir ++ "/**/" ++ STYLELINT_EXTENSION_GLOB)).isEmpty then
      [STYLELINT_DEFAULT_TARGET]
    else
      (if hasRootCssFlag entries then [STYLELINT_EXTENSION_GLOB] else []) ++
      (sortedTargetDirs entries).map
        (fun dir => dir ++ "/**/" ++ STYLELINT_EXTENSION_GLOB)) = _
  rw [hflag]
  rfl

/-- **C7, counterexample.**  For a root directory holding a single style
file the result's first element is the root-level glob
`*.{css,scss,sass,less,pcss}`, not the "anywhere in the tree" blanket
glob `**/*.{css,scss,sass,less,pcss}` the claim names. -/
theorem C7_counterexample :
    (findStylelintTargets [FSEntry.file "a.css"]).head?
      ≠ some DEFAULT_STYLELINT_TARGET ∧
    (findStylelintTargets [FSEntry.file "a.css"]).head?
      = some STYLELINT_EXTENSION_GLOB :=
  ⟨by decide, by decide⟩

/-- **C7, amended.**  When root-level style files exist the scanner
emits the root-level extension-group glob (not the full-tree blanket) as
the first element, followed by one recursively-scoped glob per marked
target directory; the directories are in sorted string order, are
exactly the marked target directories, and the whole result is
independent of the directory-listing order (invariant under any
permutation of the listing). -/
theorem C7_result_construction (entries entries' : List FSEntry)
    (hflag : hasRootCssFlag entries = true) (hperm : entries'.Perm entries) :
    findStylelintTargets entries
      = STYLELINT_EXTENSION_GLOB :: (sortedTargetDirs entries).map
          (fun dir => dir ++ "/**/" ++ STYLELINT_EXTENSION_GLOB) ∧
    List.Sorted (fun a b => strLeb a b = true) (sortedTargetDirs entries) ∧
    (∀ d, d ∈ sortedTargetDirs entries ↔ d ∈ targetDirNames entries) ∧
    findStylelintTargets entries' = findStylelintTargets entries := by
  haveI : IsTotal String (fun a b => strLeb a b = true) := ⟨strLeb_total⟩
  haveI : IsTrans String (fun a b => strLeb a b = true) := ⟨strLeb_trans⟩
  haveI : IsAntisymm String (fun a b => strLeb a b = true) := ⟨strLeb_antisymm⟩
  refine ⟨findStylelintTargets_structure entries hflag, ?_, ?_, ?_⟩
  · exact List.sorted_insertionSort _ _
  · intro d
    rw [show sortedTargetDirs entries
        = List.insertionSort (fun a b => strLeb a b = true)
            (setDedup (targetDirNames entries)) from rfl,
      List.mem_insertionSort, setDedup_mem]
  · have hflag' : hasRootCssFlag entries' = true := by
      unfold hasRootCssFlag at hflag ⊢
      rw [any_congr_perm _ hperm, hflag]
    have hnames : (targetDirNames entries').Perm (targetDirNames entries) :=
      List.Perm.filterMap _ hperm
    have hdedup : (setDedup (targetDirNames entries')).Perm
        (setDedup (targetDirNames entries)) := by
      refine List.perm_of_nodup_nodup_toFinset_eq (setDedup_nodup _) (setDedup_nodup _) ?_
      ext x
      rw [List.mem_toFinset, List.mem_toFinset, setDedup_mem, setDedup_mem]
      exact ⟨fun h => hnames.mem_iff.mp h, fun h => hnames.mem_iff.mpr h⟩
    have hsorted : sortedTargetDirs entries' = sortedTargetDirs entries := by
      unfold sortedTargetDirs
      refine List.eq_of_perm_of_sorted ?_
        (List.sorted_insertionSort _ _) (List.sorted_insertionSort _ _)
      exact ((List.perm_insertionSort _ _).trans hdedup).trans
        (List.perm_insertionSort _ _).symm
    rw [findStylelintTargets_structure entries hflag,
      findStylelintTargets_structure entries' hflag', hsorted]

/-- **C7, witness.**  A listing with a root style file and two marked
directories, and a permuted listing of the same entries, yield the same
result. -/
theorem C7_witness :
    hasRootCssFlag [FSEntry.file "a.css", FSEntry.dir "src" [FSEntry.file "b.scss"],
        FSEntry.dir "app" [FSEntry.file "c.css"]] = true ∧
    findStylelintTargets [FSEntry.dir "app" [FSEntry.file "c.css"],
        FSEntry.file "a.css", FSEntry.dir "src" [FSEntry.file "b.scss"]]
      = findStylelintTargets [FSEntry.file "a.css",
          FSEntry.dir "src" [FSEntry.file "b.scss"],
          FSEntry.dir "app" [FSEntry.file "c.css"]] :=
  ⟨by decide,
    (C7_result_construction
      [FSEntry.file "a.css", FSEntry.dir "src" [FSEntry.file "b.scss"],
        FSEntry.dir "app" [FSEntry.file "c.css"]]
      [FSEntry.dir "app" [FSEntry.file "c.css"], FSEntry.file "a.css",
        FSEntry.dir "src" [FSEntry.file "b.scss"]]
      (by decide)
      (@List.perm_append_comm _ [FSEntry.dir "app" [FSEntry.file "c.css"]]
        [FSEntry.file "a.css", FSEntry.dir "src" [FSEntry.file "b.scss"]])).2.2.2⟩
